import Mathlib

/-!
Verification of `tools/splade_generate_golden.py`: a batch pipeline that
loads texts, runs a masked-language model, reduces dense activations to a
pruned top-k sparse representation, assembles rows with sequential ids and
writes JSONL plus a metadata sidecar.

Values that the Python code holds as floats are modelled over a generic
linear order (instantiated at `ℚ` for executable claims and at `ℝ` where the
activation transform `log (1 + max 0 x)` appears); the claims verified here
are order-theoretic and do not depend on floating-point rounding.
-/

namespace Splade

/-- Result record of `dense_row_to_sparse`: the dict
`{"indices": ..., "values": ..., "labels": ...}`. -/
structure SparseVec (α : Type) where
  indices : List ℕ
  values  : List α
  labels  : List String
deriving Repr, DecidableEq

/-! ### A stable sort standing in for Python `list.sort`

`pairs.sort(key=...)` in the source is a stable comparison sort.  We model it
with insertion sort; on every list the source sorts, the sort key is
injective, so any sort producing a sorted permutation is extensionally equal
to Python's. -/

/-- Insert `x` into `l` before the first element `y` with `le x y` false. -/
def insSorted (le : β → β → Bool) (x : β) : List β → List β
  | [] => [x]
  | y :: ys => if le x y then x :: y :: ys else y :: insSorted le x ys

/-- Sort by repeated insertion (a stable sort, like Python `list.sort`). -/
def sortPairs (le : β → β → Bool) (l : List β) : List β :=
  l.foldr (insSorted le) []

theorem insSorted_perm (le : β → β → Bool) (x : β) (l : List β) :
    List.Perm (insSorted le x l) (x :: l) := by
  induction l with
  | nil => simp [insSorted]
  | cons y ys ih =>
    by_cases h : le x y = true
    · simp [insSorted, h]
    · simp only [insSorted, if_neg h]
      exact (List.Perm.cons y ih).trans (List.Perm.swap x y ys)

theorem sortPairs_perm (le : β → β → Bool) (l : List β) :
    List.Perm (sortPairs le l) l := by
  induction l with
  | nil => simp [sortPairs]
  | cons y ys ih =>
    simp only [sortPairs, List.foldr_cons]
    exact (insSorted_perm le y _).trans (List.Perm.cons y ih)

theorem insSorted_pairwise (le : β → β → Bool)
    (total : ∀ a b, le a b = true ∨ le b a = true)
    (htrans : ∀ a b c, le a b = true → le b c = true → le a c = true)
    (x : β) (l : List β) (hl : l.Pairwise (fun a b => le a b = true)) :
    (insSorted le x l).Pairwise (fun a b => le a b = true) := by
  induction l with
  | nil => simp [insSorted]
  | cons y ys ih =>
    rcases List.pairwise_cons.mp hl with ⟨hy, hys⟩
    by_cases h : le x y = true
    · simp only [insSorted, if_pos h]
      refine List.pairwise_cons.mpr ⟨?_, hl⟩
      intro z hz
      rcases List.mem_cons.mp hz with hz | hz
      · subst hz; exact h
      · exact htrans x y z h (hy z hz)
    · simp only [insSorted, if_neg h]
      refine List.pairwise_cons.mpr ⟨?_, ih hys⟩
      intro z hz
      rcases List.mem_cons.mp ((insSorted_perm le x ys).mem_iff.mp hz) with hz' | hz'
      · subst hz'
        exact (total y _).resolve_right h
      · exact hy z hz'

theorem sortPairs_pairwise (le : β → β → Bool)
    (total : ∀ a b, le a b = true ∨ le b a = true)
    (htrans : ∀ a b c, le a b = true → le b c = true → le a c = true)
    (l : List β) :
    (sortPairs le l).Pairwise (fun a b => le a b = true) := by
  induction l with
  | nil => simp [sortPairs]
  | cons y ys ih =>
    simp only [sortPairs, List.foldr_cons]
    exact insSorted_pairwise le total htrans y _ ih

/-! ### Function `dense_row_to_sparse` (source lines 177–207) -/

section DenseToSparse

variable {α : Type} [LinearOrder α]

/-- The filter loop (lines 184–189): keep `(idx, value)` for every dimension
with `value > prune_threshold` (`value <= prune_threshold` is skipped). -/
def prunedPairs (prune_threshold : α) (row : List α) : List (ℕ × α) :=
  row.enum.filter fun p => decide (prune_threshold < p.2)

/-- Comparison realizing Python's sort key `(-value, index)`:
descending value, ties broken by ascending index (line 192). -/
def selLe (p q : ℕ × α) : Bool :=
  decide (q.2 < p.2) || (decide (p.2 = q.2) && decide (p.1 ≤ q.1))

/-- Comparison realizing the final sort key `index` (line 195). -/
def idxLe (p q : ℕ × α) : Bool :=
  decide (p.1 ≤ q.1)

/-- The top-k truncation (lines 191–193): when `top_k > 0` and more than
`top_k` pairs survive, sort by `(-value, index)` and keep the first `top_k`. -/
def selectedPairs (top_k : Int) (prune_threshold : α) (row : List α) :
    List (ℕ × α) :=
  let pairs := prunedPairs prune_threshold row
  if 0 < top_k ∧ top_k < (pairs.length : Int) then
    (sortPairs selLe pairs).take top_k.toNat
  else pairs

/-- The pairs after the final re-sort by ascending index (line 195). -/
def finalPairs (top_k : Int) (prune_threshold : α) (row : List α) :
    List (ℕ × α) :=
  sortPairs idxLe (selectedPairs top_k prune_threshold row)

/-- Function `dense_row_to_sparse` (lines 177–207).  The external
`tokenizer.convert_ids_to_tokens` is the parameter `labelOf`, applied
index-wise. -/
def dense_row_to_sparse (labelOf : ℕ → String) (top_k : Int)
    (prune_threshold : α) (with_labels : Bool) (row : List α) : SparseVec α :=
  let pairs := finalPairs top_k prune_threshold row
  let indices := pairs.map Prod.fst
  { indices := indices
    values  := pairs.map Prod.snd
    labels  := if with_labels ∧ indices ≠ [] then indices.map labelOf else [] }

end DenseToSparse

/-! ### Function `encode_batch_sparse` (source lines 141–174)

The tokenizer and model are external collaborators: with
`padding="max_length"` each document yields an attention mask over
`sequence_length` token positions and a `[seq_len, vocab]` logit matrix.  We
abstract the pair as `TokenizedDoc`; the activation transform is a function
parameter, instantiated at `fun x => Real.log (1 + max 0 x)` (torch
`log1p ∘ relu`) in the theorems.  `sequence_length` is validated positive, so
positions are indexed by `Fin (n+1)`. -/

/-- One document as the model sees it: attention mask per position and
logits per position and vocabulary dimension. -/
structure TokenizedDoc (n v : ℕ) (α : Type) where
  mask   : Fin (n + 1) → α
  logits : Fin (n + 1) → Fin v → α

section Encode

variable {α : Type} [LinearOrder α] [Mul α] {n v : ℕ}

/-- One component of the dense vector (lines 159–161):
`masked = log1p(relu(logits)) * attention_mask.unsqueeze(-1)` followed by
`masked.max(dim=1)`. -/
def denseComponent (f : α → α) (mask : Fin (n + 1) → α)
    (logits : Fin (n + 1) → Fin v → α) (j : Fin v) : α :=
  (Finset.univ : Finset (Fin (n + 1))).sup' Finset.univ_nonempty
    (fun s => f (logits s j) * mask s)

/-- The dense activation row for one document (`for row in dense`, the row's
`tolist()` at line 185). -/
def denseRow (f : α → α) (mask : Fin (n + 1) → α)
    (logits : Fin (n + 1) → Fin v → α) : List α :=
  (List.finRange v).map (denseComponent f mask logits)

/-- Function `encode_batch_sparse` (lines 141–174): per document, reduce the logits to
a dense row and convert it to a `SparseVec`. -/
def encode_batch_sparse (labelOf : ℕ → String) (f : α → α) (top_k : Int)
    (prune_threshold : α) (with_labels : Bool)
    (docs : List (TokenizedDoc n v α)) : List (SparseVec α) :=
  docs.map fun d =>
    dense_row_to_sparse labelOf top_k prune_threshold with_labels
      (denseRow f d.mask d.logits)

end Encode

/-! ### Function `batched` (lines 136–138), row assembly in `main` (lines 271–283) -/

/-- Function `batched` (lines 136–138): contiguous chunks of size `batch_size`.
For `batch_size ≥ 1` (guaranteed by validation) each step takes
`(x :: xs).take batch_size` and continues on `(x :: xs).drop batch_size`,
written `xs.drop (batch_size - 1)` so the recursion is on a shorter list. -/
def batched {γ : Type} (batch_size : ℕ) : List γ → List (List γ)
  | [] => []
  | x :: xs =>
      (x :: xs).take batch_size :: batched batch_size (xs.drop (batch_size - 1))
termination_by l => l.length
decreasing_by simp only [List.length_drop, List.length_cons]; omega

/-- One output row `{id, text, indices, values, labels}` (lines 276–282). -/
structure GoldenRow (α : Type) where
  id      : String
  text    : String
  indices : List ℕ
  values  : List α
  labels  : List String
deriving Repr, DecidableEq

section Assemble

variable {α : Type}

/-- The inner loop of `main` over one batch (lines 275–283): each text is
zipped with its sparse vector and appended with id `s{len(rows)+1}`.  The
per-document encoding (tokenizer + model + `dense_row_to_sparse`) is the
parameter `encode`; with `padding="max_length"` it is a function of the
single text. -/
def appendBatch (encode : String → SparseVec α)
    (rows : List (GoldenRow α)) (batch : List String) : List (GoldenRow α) :=
  (batch.zip (batch.map encode)).foldl
    (fun rs p =>
      rs ++ [{ id := "s" ++ toString (rs.length + 1), text := p.1,
               indices := p.2.indices, values := p.2.values,
               labels := p.2.labels }]) rows

/-- The whole row-assembly loop of `main` (lines 271–283). -/
def mainRows (encode : String → SparseVec α) (batch_size : ℕ)
    (texts : List String) : List (GoldenRow α) :=
  (batched batch_size texts).foldl (appendBatch encode) []

/-- Modelled from the spec (§4.5 Row Assembler): one GoldenRow per document
in input order, with sequential ids `s{start+1}, s{start+2}, ...` counted
across the whole run. -/
def rowAssemblerSpec (encode : String → SparseVec α) :
    ℕ → List String → List (GoldenRow α)
  | _, [] => []
  | start, t :: ts =>
      { id := "s" ++ toString (start + 1), text := t,
        indices := (encode t).indices, values := (encode t).values,
        labels := (encode t).labels } :: rowAssemblerSpec encode (start + 1) ts

end Assemble

/-! ### Function `load_texts` (lines 115–123), `resolve_device` (lines 126–133),
validation in `main` (lines 234–250), token resolution (line 253) -/

/-- Python `str.strip()` with no argument: remove leading and trailing
whitespace.  Written on the character list so it evaluates in the kernel. -/
def strip (s : String) : String :=
  ⟨(((s.data.dropWhile Char.isWhitespace).reverse.dropWhile
      Char.isWhitespace).reverse)⟩

/-- Function `load_texts`: the optional file is modelled as its list of lines; Python
`line.strip()` is `strip` and `if text:` is non-emptiness. -/
def load_texts (inline_texts : List String)
    (texts_file : Option (List String)) : List String :=
  let texts := inline_texts
  match texts_file with
  | none => texts
  | some lines =>
      lines.foldl (fun acc line =>
        let text := strip line
        if text = "" then acc else acc ++ [text]) texts

/-- Function `resolve_device`: `torch.cuda.is_available()`,
`hasattr(torch.backends, "mps")` and `torch.backends.mps.is_available()` are
the three Boolean parameters. -/
def resolve_device (cuda_available mps_backend mps_available : Bool)
    (device_arg : String) : String :=
  if device_arg ≠ "auto" then device_arg
  else if cuda_available then "cuda"
  else if mps_backend && mps_available then "mps"
  else "cpu"

/-- Outcome of the validation part of `main` (lines 234–250): either an early
`return 2` with a message on the error stream, before any tokenizer/model
load or file write, or control proceeds to the encoding phase. -/
inductive MainOutcome where
  | earlyExit (code : ℕ) (msg : String)
  | proceed
deriving Repr, DecidableEq

/-- The validation chain of `main` (lines 236–250), in source order. -/
def mainValidate (texts : List String)
    (sequence_length batch_size top_k : Int) (prune_threshold : ℚ) :
    MainOutcome :=
  if texts = [] then
    .earlyExit 2 "error: provide at least one --text or --texts-file with non-empty lines"
  else if sequence_length ≤ 0 then
    .earlyExit 2 "error: --sequence-length must be > 0"
  else if batch_size ≤ 0 then
    .earlyExit 2 "error: --batch-size must be > 0"
  else if top_k < 0 then
    .earlyExit 2 "error: --top-k must be >= 0"
  else if prune_threshold < 0 then
    .earlyExit 2 "error: --prune-threshold must be >= 0"
  else .proceed

/-- Line 253: `os.getenv(args.hf_token_env, "").strip() or None`, with the
process environment as a partial map. -/
def resolve_hf_token (env : String → Option String)
    (hf_token_env : String) : Option String :=
  let stripped := strip ((env hf_token_env).getD "")
  if stripped = "" then none else some stripped

/-! ### Output writers (lines 210–215 and 226–230)

Filesystem effects are modelled by a state: file contents by path, plus the
set of existing directories.  `path.open("w")` replaces the content at
`path`; `path.parent.mkdir(parents=True, exist_ok=True)` adds the parent
chain (the external `pathlib` parent chain is the parameter `parentDirs`).
JSON serialization (`json.dumps` / `json.dump`) is external and appears as a
serializer parameter. -/

/-- Abstract filesystem state. -/
structure FS where
  files : String → Option String
  dirs  : String → Bool

/-- Content written by `write_jsonl` (lines 213–215): for each row the
serialized object then a newline. -/
def jsonlContent {α : Type} (dumps : GoldenRow α → String)
    (rows : List (GoldenRow α)) : String :=
  String.join (rows.map fun row => dumps row ++ "\n")

/-- Function `write_jsonl` (lines 210–215): create parent directories, then open the
path in truncating write mode and write all rows. -/
def write_jsonl {α : Type} (dumps : GoldenRow α → String)
    (parentDirs : String → List String) (fs : FS) (path : String)
    (rows : List (GoldenRow α)) : FS :=
  { dirs  := fun d => fs.dirs d || decide (d ∈ parentDirs path)
    files := fun p =>
      if p = path then some (jsonlContent dumps rows) else fs.files p }

/-- Function `write_metadata` (lines 226–230): create parent directories, then open
the path in truncating write mode, dump the metadata document and a trailing
newline. -/
def write_metadata {μ : Type} (dumpMeta : μ → String)
    (parentDirs : String → List String) (fs : FS) (path : String)
    (metadata : μ) : FS :=
  { dirs  := fun d => fs.dirs d || decide (d ∈ parentDirs path)
    files := fun p =>
      if p = path then some (dumpMeta metadata ++ "\n") else fs.files p }

/-! ### Helper lemmas about the prune/top-k/sort pipeline -/

section PipelineLemmas

variable {α : Type} [LinearOrder α]

theorem selLe_total (p q : ℕ × α) : selLe p q = true ∨ selLe q p = true := by
  simp only [selLe, Bool.or_eq_true, Bool.and_eq_true, decide_eq_true_eq]
  rcases lt_trichotomy p.2 q.2 with h | h | h
  · exact Or.inr (Or.inl h)
  · rcases Nat.le_total p.1 q.1 with h1 | h1
    · exact Or.inl (Or.inr ⟨h, h1⟩)
    · exact Or.inr (Or.inr ⟨h.symm, h1⟩)
  · exact Or.inl (Or.inl h)

theorem selLe_trans (p q r : ℕ × α) :
    selLe p q = true → selLe q r = true → selLe p r = true := by
  simp only [selLe, Bool.or_eq_true, Bool.and_eq_true, decide_eq_true_eq]
  rintro (h1 | ⟨h1, h1'⟩) (h2 | ⟨h2, h2'⟩)
  · exact Or.inl (h2.trans h1)
  · exact Or.inl (h2 ▸ h1)
  · exact Or.inl (h1 ▸ h2)
  · exact Or.inr ⟨h1.trans h2, h1'.trans h2'⟩

theorem idxLe_total (p q : ℕ × α) : idxLe p q = true ∨ idxLe q p = true := by
  simp only [idxLe, decide_eq_true_eq]
  exact Nat.le_total p.1 q.1

theorem idxLe_trans (p q r : ℕ × α) :
    idxLe p q = true → idxLe q r = true → idxLe p r = true := by
  simp only [idxLe, decide_eq_true_eq]
  exact Nat.le_trans

theorem mem_prunedPairs {t : α} {row : List α} {i : ℕ} {v : α} :
    (i, v) ∈ prunedPairs t row ↔ row.get? i = some v ∧ t < v := by
  simp only [prunedPairs, List.mem_filter, decide_eq_true_eq]
  rw [List.mem_enum_iff_get?]

theorem nodup_fst_prunedPairs (t : α) (row : List α) :
    ((prunedPairs t row).map Prod.fst).Nodup :=
  ((List.filter_sublist _).map Prod.fst).nodup (List.nodup_enum_map_fst row)

theorem nodup_fst_sortPairs (le : ℕ × α → ℕ × α → Bool) {l : List (ℕ × α)}
    (h : (l.map Prod.fst).Nodup) :
    ((sortPairs le l).map Prod.fst).Nodup :=
  (((sortPairs_perm le l).map Prod.fst).nodup_iff).mpr h

theorem nodup_fst_selectedPairs (top_k : Int) (t : α) (row : List α) :
    ((selectedPairs top_k t row).map Prod.fst).Nodup := by
  simp only [selectedPairs]
  split
  · exact ((List.take_sublist _ _).map Prod.fst).nodup
      (nodup_fst_sortPairs selLe (nodup_fst_prunedPairs t row))
  · exact nodup_fst_prunedPairs t row

theorem mem_finalPairs {top_k : Int} {t : α} {row : List α} {p : ℕ × α} :
    p ∈ finalPairs top_k t row ↔ p ∈ selectedPairs top_k t row :=
  (sortPairs_perm idxLe _).mem_iff

theorem nodup_fst_finalPairs (top_k : Int) (t : α) (row : List α) :
    ((finalPairs top_k t row).map Prod.fst).Nodup :=
  nodup_fst_sortPairs idxLe (nodup_fst_selectedPairs top_k t row)

theorem selectedPairs_subset {top_k : Int} {t : α} {row : List α} {p : ℕ × α}
    (hp : p ∈ selectedPairs top_k t row) : p ∈ prunedPairs t row := by
  simp only [selectedPairs] at hp
  split at hp
  · exact (sortPairs_perm selLe _).mem_iff.mp (List.mem_of_mem_take hp)
  · exact hp

theorem finalPairs_subset {top_k : Int} {t : α} {row : List α} {p : ℕ × α}
    (hp : p ∈ finalPairs top_k t row) : p ∈ prunedPairs t row :=
  selectedPairs_subset (mem_finalPairs.mp hp)

theorem pairwise_fst_lt_finalPairs (top_k : Int) (t : α) (row : List α) :
    (finalPairs top_k t row).Pairwise (fun p q => p.1 < q.1) := by
  have hsorted : (finalPairs top_k t row).Pairwise (fun p q => idxLe p q = true) :=
    sortPairs_pairwise idxLe idxLe_total idxLe_trans _
  have hne : (finalPairs top_k t row).Pairwise (fun p q => p.1 ≠ q.1) :=
    List.pairwise_map.mp (nodup_fst_finalPairs top_k t row)
  refine (hsorted.and hne).imp ?_
  rintro p q ⟨hle, hne⟩
  simp only [idxLe, decide_eq_true_eq] at hle
  exact lt_of_le_of_ne hle hne

theorem indices_def (labelOf : ℕ → String) (top_k : Int) (t : α)
    (with_labels : Bool) (row : List α) :
    (dense_row_to_sparse labelOf top_k t with_labels row).indices =
      (finalPairs top_k t row).map Prod.fst := rfl

theorem values_def (labelOf : ℕ → String) (top_k : Int) (t : α)
    (with_labels : Bool) (row : List α) :
    (dense_row_to_sparse labelOf top_k t with_labels row).values =
      (finalPairs top_k t row).map Prod.snd := rfl

end PipelineLemmas

/-! ### Claims C1 and C4 -/

/-- C1: for every dense row and threshold `t ≥ 0`, the conversion builds the
survivor mapping from exactly the dimensions with value strictly greater
than `t`; every resulting index/value has value `> t`, a dimension whose
value equals `t` never appears, and with `top_k = 0` the resulting indices
are exactly the dimensions with value `> t`. -/
theorem dense_row_to_sparse_prune (labelOf : ℕ → String) (top_k : Int)
    (t : ℚ) (with_labels : Bool) (row : List ℚ) (ht : 0 ≤ t) :
    (∀ i v, (i, v) ∈ prunedPairs t row ↔ row.get? i = some v ∧ t < v) ∧
    (∀ i ∈ (dense_row_to_sparse labelOf top_k t with_labels row).indices,
      ∃ v, row.get? i = some v ∧ t < v) ∧
    (∀ v ∈ (dense_row_to_sparse labelOf top_k t with_labels row).values,
      t < v) ∧
    (∀ i v, row.get? i = some v → v = t →
      i ∉ (dense_row_to_sparse labelOf top_k t with_labels row).indices) ∧
    (top_k = 0 → ∀ i v, row.get? i = some v →
      (i ∈ (dense_row_to_sparse labelOf top_k t with_labels row).indices ↔
        t < v)) := by
  have hidx : ∀ i ∈ (dense_row_to_sparse labelOf top_k t with_labels row).indices,
      ∃ v, row.get? i = some v ∧ t < v := by
    intro i hi
    rw [indices_def] at hi
    rcases List.mem_map.mp hi with ⟨p, hp, rfl⟩
    exact ⟨p.2, mem_prunedPairs.mp (finalPairs_subset hp)⟩
  refine ⟨fun i v => mem_prunedPairs, hidx, ?_, ?_, ?_⟩
  · intro v hv
    rw [values_def] at hv
    rcases List.mem_map.mp hv with ⟨p, hp, rfl⟩
    exact (mem_prunedPairs.mp (finalPairs_subset hp)).2
  · intro i v hget hvt hi
    rcases hidx i hi with ⟨v', hget', htv'⟩
    rw [hget] at hget'
    cases Option.some_injective _ hget'
    exact absurd (hvt ▸ htv') (lt_irrefl t)
  · intro hk i v hget
    constructor
    · intro hi
      rcases hidx i hi with ⟨v', hget', htv'⟩
      rw [hget] at hget'
      cases Option.some_injective _ hget'
      exact htv'
    · intro htv
      rw [indices_def]
      refine List.mem_map.mpr ⟨(i, v), ?_, rfl⟩
      rw [mem_finalPairs]
      have : selectedPairs top_k t row = prunedPairs t row := by
        unfold selectedPairs
        rw [if_neg]
        subst hk
        simp
      rw [this]
      exact mem_prunedPairs.mpr ⟨hget, htv⟩

/-- C1 witness at `row = [1, 0, 2]`, `t = 0`, `top_k = 0`. -/
theorem dense_row_to_sparse_prune_witness :
    (0 : ℚ) ≤ 0 ∧
    ∀ v ∈ (dense_row_to_sparse (fun i => toString i) 0 (0 : ℚ) false
        [1, 0, 2]).values, (0 : ℚ) < v :=
  ⟨le_refl 0,
   (dense_row_to_sparse_prune (fun i => toString i) 0 0 false [1, 0, 2]
     (le_refl 0)).2.2.1⟩

/-- C4: every `SparseVec` produced by the conversion has strictly increasing
(hence duplicate-free) indices, `values` and `indices` of equal length, and
labels of the same length when requested and non-empty, else empty. -/
theorem dense_row_to_sparse_invariant (labelOf : ℕ → String) (top_k : Int)
    (t : ℚ) (with_labels : Bool) (row : List ℚ) :
    (dense_row_to_sparse labelOf top_k t with_labels row).indices.Pairwise
        (· < ·) ∧
    (dense_row_to_sparse labelOf top_k t with_labels row).values.length =
      (dense_row_to_sparse labelOf top_k t with_labels row).indices.length ∧
    (with_labels = true →
      (dense_row_to_sparse labelOf top_k t with_labels row).indices ≠ [] →
      (dense_row_to_sparse labelOf top_k t with_labels row).labels.length =
        (dense_row_to_sparse labelOf top_k t with_labels row).indices.length) ∧
    ((with_labels = false ∨
        (dense_row_to_sparse labelOf top_k t with_labels row).indices = []) →
      (dense_row_to_sparse labelOf top_k t with_labels row).labels = []) := by
  refine ⟨?_, ?_, ?_, ?_⟩
  · rw [indices_def]
    exact List.pairwise_map.mpr (pairwise_fst_lt_finalPairs top_k t row)
  · rw [indices_def, values_def]
    simp
  · intro hwl hne
    rw [indices_def] at hne ⊢
    simp only [dense_row_to_sparse, hwl, true_and, ne_eq]
    rw [if_pos]
    · simp
    · simpa using hne
  · intro h
    rcases h with h | h
    · simp [dense_row_to_sparse, h]
    · rw [indices_def] at h
      simp [dense_row_to_sparse, h]

/-- C4 witness at `row = [5, 3, 5, 0, 2]`, `top_k = 2`, labels on. -/
theorem dense_row_to_sparse_invariant_witness :
    (dense_row_to_sparse (fun i => toString i) 2 (0 : ℚ) true
        [5, 3, 5, 0, 2]).labels.length =
      (dense_row_to_sparse (fun i => toString i) 2 (0 : ℚ) true
        [5, 3, 5, 0, 2]).indices.length :=
  (dense_row_to_sparse_invariant (fun i => toString i) 2 0 true
    [5, 3, 5, 0, 2]).2.2.1 rfl (by decide)

/-! ### Claim C2 -/

theorem sortPairs_take_le_drop {β : Type} (le : β → β → Bool)
    (total : ∀ a b, le a b = true ∨ le b a = true)
    (htrans : ∀ a b c, le a b = true → le b c = true → le a c = true)
    (l : List β) (k : ℕ) :
    ∀ p ∈ (sortPairs le l).take k, ∀ q ∈ (sortPairs le l).drop k,
      le p q = true := by
  have hp := sortPairs_pairwise le total htrans l
  rw [← List.take_append_drop k (sortPairs le l)] at hp
  exact (List.pairwise_append.mp hp).2.2

/-- C2: when `top_k > 0` and more than `top_k` pairs survive the prune, the
kept pairs number exactly `top_k`, come from the survivors, and every kept
pair beats every discarded survivor by larger value or, at equal value, by
smaller dimension index; when `top_k = 0` or the survivors fit, all
survivors are kept.  The result's indices and values are exactly the kept
pairs, and with `top_k > 0` at most `top_k` entries are returned. -/
theorem dense_row_to_sparse_topk (labelOf : ℕ → String) (top_k : Int)
    (t : ℚ) (with_labels : Bool) (row : List ℚ) :
    (0 < top_k → top_k < ((prunedPairs t row).length : Int) →
      ((finalPairs top_k t row).length : Int) = top_k ∧
      (∀ p ∈ finalPairs top_k t row, p ∈ prunedPairs t row) ∧
      (∀ p ∈ finalPairs top_k t row, ∀ q ∈ prunedPairs t row,
        q ∉ finalPairs top_k t row →
        q.2 < p.2 ∨ (p.2 = q.2 ∧ p.1 < q.1))) ∧
    ((top_k = 0 ∨ ((prunedPairs t row).length : Int) ≤ top_k) →
      List.Perm (finalPairs top_k t row) (prunedPairs t row)) ∧
    (0 < top_k → ((finalPairs top_k t row).length : Int) ≤ top_k) ∧
    (dense_row_to_sparse labelOf top_k t with_labels row).indices =
      (finalPairs top_k t row).map Prod.fst ∧
    (dense_row_to_sparse labelOf top_k t with_labels row).values =
      (finalPairs top_k t row).map Prod.snd := by
  have hlen_sort :
      (sortPairs selLe (prunedPairs t row)).length = (prunedPairs t row).length :=
    (sortPairs_perm selLe _).length_eq
  have hfin_len :
      (finalPairs top_k t row).length = (selectedPairs top_k t row).length :=
    (sortPairs_perm idxLe _).length_eq
  have htrunc : ∀ h1 : 0 < top_k, top_k < ((prunedPairs t row).length : Int) →
      selectedPairs top_k t row =
        (sortPairs selLe (prunedPairs t row)).take top_k.toNat := by
    intro h1 h2
    simp only [selectedPairs]
    rw [if_pos ⟨h1, h2⟩]
  refine ⟨?_, ?_, ?_, rfl, rfl⟩
  · intro h1 h2
    have hsel := htrunc h1 h2
    refine ⟨?_, fun p hp => finalPairs_subset hp, ?_⟩
    · rw [hfin_len, hsel, List.length_take, hlen_sort]
      omega
    · intro p hp q hq hq2
      have hp' : p ∈ (sortPairs selLe (prunedPairs t row)).take top_k.toNat :=
        hsel ▸ mem_finalPairs.mp hp
      have hq' : q ∈ sortPairs selLe (prunedPairs t row) :=
        (sortPairs_perm selLe _).mem_iff.mpr hq
      have hq'' : q ∈ (sortPairs selLe (prunedPairs t row)).drop top_k.toNat := by
        have hsplit : sortPairs selLe (prunedPairs t row) =
            (sortPairs selLe (prunedPairs t row)).take top_k.toNat ++
              (sortPairs selLe (prunedPairs t row)).drop top_k.toNat :=
          (List.take_append_drop _ _).symm
        rcases List.mem_append.mp (hsplit ▸ hq') with h | h
        · exact absurd (mem_finalPairs.mpr (hsel ▸ h)) hq2
        · exact h
      have hle : selLe p q = true :=
        sortPairs_take_le_drop selLe selLe_total selLe_trans _ top_k.toNat
          p hp' q hq''
      have hne : p.1 ≠ q.1 := by
        have hnodup :
            ((sortPairs selLe (prunedPairs t row)).map Prod.fst).Nodup :=
          nodup_fst_sortPairs selLe (nodup_fst_prunedPairs t row)
        rw [← List.take_append_drop top_k.toNat
            (sortPairs selLe (prunedPairs t row)), List.map_append] at hnodup
        have hdisj := List.disjoint_of_nodup_append hnodup
        intro heq
        exact hdisj (List.mem_map_of_mem Prod.fst hp')
          (heq ▸ List.mem_map_of_mem Prod.fst hq'')
      simp only [selLe, Bool.or_eq_true, Bool.and_eq_true,
        decide_eq_true_eq] at hle
      rcases hle with h | ⟨hveq, hile⟩
      · exact Or.inl h
      · exact Or.inr ⟨hveq, lt_of_le_of_ne hile hne⟩
  · intro h
    have hsel : selectedPairs top_k t row = prunedPairs t row := by
      simp only [selectedPairs]
      rw [if_neg]
      rintro ⟨h1, h2⟩
      rcases h with h | h
      · omega
      · omega
    rw [finalPairs, hsel]
    exact sortPairs_perm idxLe _
  · intro h1
    by_cases h2 : top_k < ((prunedPairs t row).length : Int)
    · rw [hfin_len, htrunc h1 h2, List.length_take, hlen_sort]
      omega
    · have hsel : selectedPairs top_k t row = prunedPairs t row := by
        simp only [selectedPairs]
        rw [if_neg]
        rintro ⟨_, h2'⟩
        exact h2 h2'
      rw [hfin_len, hsel]
      omega

/-- C2 witness at `row = [5, 3, 5, 0, 2]`, `t = 0`, `top_k = 2` (four
survivors, truncated to two). -/
theorem dense_row_to_sparse_topk_witness :
    ((finalPairs 2 (0 : ℚ) [5, 3, 5, 0, 2]).length : Int) = 2 :=
  ((dense_row_to_sparse_topk (fun i => toString i) 2 0 false
      [5, 3, 5, 0, 2]).1 (by decide) (by decide)).1

/-! ### Claim C3 -/

/-- C3: for every document in the batch, the dense vector that
`encode_batch_sparse` feeds to `dense_row_to_sparse` equals, per vocabulary
dimension, the maximum over token positions of
`attention_mask(position) * log (1 + max 0 (logit(position, dimension)))`;
every component is non-negative and a padding position (mask 0) contributes
zero. -/
theorem encode_batch_dense_formula {n v : ℕ} (labelOf : ℕ → String)
    (top_k : Int) (t : ℝ) (with_labels : Bool)
    (docs : List (TokenizedDoc n v ℝ))
    (hmask : ∀ d ∈ docs, ∀ s, d.mask s = 0 ∨ d.mask s = 1) :
    (encode_batch_sparse labelOf (fun x => Real.log (1 + max 0 x)) top_k t
        with_labels docs =
      docs.map fun d => dense_row_to_sparse labelOf top_k t with_labels
        (denseRow (fun x => Real.log (1 + max 0 x)) d.mask d.logits)) ∧
    ∀ d ∈ docs,
      (denseRow (fun x => Real.log (1 + max 0 x)) d.mask d.logits).length
          = v ∧
      ∀ (j : Fin v)
        (h : (j : ℕ) <
          (denseRow (fun x => Real.log (1 + max 0 x)) d.mask
            d.logits).length),
        ((denseRow (fun x => Real.log (1 + max 0 x)) d.mask d.logits).get
            ⟨j, h⟩ =
          (Finset.univ : Finset (Fin (n + 1))).sup' Finset.univ_nonempty
            (fun s => d.mask s * Real.log (1 + max 0 (d.logits s j)))) ∧
        (0 ≤ (denseRow (fun x => Real.log (1 + max 0 x)) d.mask
            d.logits).get ⟨j, h⟩) ∧
        (∀ s : Fin (n + 1), d.mask s = 0 →
          d.mask s * Real.log (1 + max 0 (d.logits s j)) = 0) := by
  have hf_nonneg : ∀ x : ℝ, 0 ≤ Real.log (1 + max 0 x) := fun x =>
    Real.log_nonneg (le_add_of_nonneg_right (le_max_left 0 x))
  refine ⟨rfl, ?_⟩
  intro d hd
  have hlen : (denseRow (fun x => Real.log (1 + max 0 x)) d.mask
      d.logits).length = v := by
    simp [denseRow]
  refine ⟨hlen, ?_⟩
  intro j h
  have hget : (denseRow (fun x => Real.log (1 + max 0 x)) d.mask
      d.logits).get ⟨j, h⟩ =
      denseComponent (fun x => Real.log (1 + max 0 x)) d.mask d.logits j := by
    simp only [denseRow, List.get_map, List.get_finRange]
  refine ⟨?_, ?_, ?_⟩
  · rw [hget, denseComponent]
    exact Finset.sup'_congr _ rfl fun s _ => mul_comm _ _
  · rw [hget, denseComponent]
    refine le_trans ?_ (Finset.le_sup' _ (Finset.mem_univ (0 : Fin (n + 1))))
    rcases hmask d hd 0 with h0 | h1
    · rw [h0, mul_zero]
    · rw [h1, mul_one]
      exact hf_nonneg _
  · intro s hs
    rw [hs, zero_mul]

/-- C3 witness: one document, one token position, one vocabulary dimension,
mask 1 and logit 0. -/
theorem encode_batch_dense_formula_witness :
    encode_batch_sparse (fun i => toString i)
        (fun x => Real.log (1 + max 0 x)) 24 0 false
        [(⟨fun _ => 1, fun _ _ => 0⟩ : TokenizedDoc 0 1 ℝ)] =
      [(⟨fun _ => 1, fun _ _ => 0⟩ : TokenizedDoc 0 1 ℝ)].map
        fun d => dense_row_to_sparse (fun i => toString i) 24 0 false
          (denseRow (fun x => Real.log (1 + max 0 x)) d.mask d.logits) :=
  (encode_batch_dense_formula (fun i => toString i) 24 0 false
    [(⟨fun _ => 1, fun _ _ => 0⟩ : TokenizedDoc 0 1 ℝ)]
    (by
      intro d hd s
      simp only [List.mem_singleton] at hd
      subst hd
      exact Or.inr rfl)).1

/-! ### Claim C5 -/

section AssembleLemmas

variable {α : Type}

theorem rowAssemblerSpec_length (encode : String → SparseVec α) (s : ℕ)
    (ts : List String) :
    (rowAssemblerSpec encode s ts).length = ts.length := by
  induction ts generalizing s with
  | nil => simp [rowAssemblerSpec]
  | cons x xs ih => simp [rowAssemblerSpec, ih]

theorem rowAssemblerSpec_append (encode : String → SparseVec α) (s : ℕ)
    (xs ys : List String) :
    rowAssemblerSpec encode s (xs ++ ys) =
      rowAssemblerSpec encode s xs ++
        rowAssemblerSpec encode (s + xs.length) ys := by
  induction xs generalizing s with
  | nil => simp [rowAssemblerSpec]
  | cons x xs ih =>
    have h1 : rowAssemblerSpec encode s ((x :: xs) ++ ys) =
        { id := "s" ++ toString (s + 1), text := x,
          indices := (encode x).indices, values := (encode x).values,
          labels := (encode x).labels } ::
          rowAssemblerSpec encode (s + 1) (xs ++ ys) := rfl
    have h2 : rowAssemblerSpec encode s (x :: xs) =
        { id := "s" ++ toString (s + 1), text := x,
          indices := (encode x).indices, values := (encode x).values,
          labels := (encode x).labels } ::
          rowAssemblerSpec encode (s + 1) xs := rfl
    rw [h1, ih, h2, List.cons_append, List.length_cons]
    have harith : s + 1 + xs.length = s + (xs.length + 1) := by omega
    rw [harith]

theorem appendBatch_eq (encode : String → SparseVec α)
    (rows : List (GoldenRow α)) (batch : List String) :
    appendBatch encode rows batch =
      rows ++ rowAssemblerSpec encode rows.length batch := by
  induction batch generalizing rows with
  | nil => simp [appendBatch, rowAssemblerSpec]
  | cons x xs ih =>
    simp only [appendBatch, List.map_cons, List.zip_cons_cons,
      List.foldl_cons]
    have hstep := ih (rows ++
      [{ id := "s" ++ toString (rows.length + 1), text := x,
         indices := (encode x).indices, values := (encode x).values,
         labels := (encode x).labels }])
    simp only [appendBatch] at hstep
    rw [hstep]
    simp [rowAssemblerSpec, List.length_append]

theorem mainRows_foldl (encode : String → SparseVec α) (bs : ℕ)
    (hbs : 0 < bs) (N : ℕ) :
    ∀ texts : List String, texts.length ≤ N →
    ∀ rows : List (GoldenRow α),
      (batched bs texts).foldl (appendBatch encode) rows =
        rows ++ rowAssemblerSpec encode rows.length texts := by
  induction N with
  | zero =>
    intro texts hlen rows
    have htexts : texts = [] := List.length_eq_zero.mp (Nat.le_zero.mp hlen)
    subst htexts
    simp [batched, rowAssemblerSpec]
  | succ N ih =>
    intro texts hlen rows
    cases texts with
    | nil => simp [batched, rowAssemblerSpec]
    | cons x xs =>
      simp only [batched, List.foldl_cons]
      rw [appendBatch_eq]
      rw [ih (xs.drop (bs - 1))
        (by simp only [List.length_drop]; simp at hlen; omega)
        (rows ++ rowAssemblerSpec encode rows.length ((x :: xs).take bs))]
      have hsplit : (x :: xs).take bs ++ xs.drop (bs - 1) = x :: xs := by
        cases bs with
        | zero => omega
        | succ b =>
          simp only [List.take_succ_cons, Nat.add_sub_cancel,
            List.cons_append]
          rw [List.take_append_drop]
      conv_rhs => rw [← hsplit]
      rw [rowAssemblerSpec_append]
      rw [List.append_assoc]
      have hlen2 : (rows ++
          rowAssemblerSpec encode rows.length ((x :: xs).take bs)).length =
          rows.length + ((x :: xs).take bs).length := by
        rw [List.length_append, rowAssemblerSpec_length]
      rw [hlen2]

theorem rowAssemblerSpec_map_id (encode : String → SparseVec α) (s : ℕ)
    (ts : List String) :
    (rowAssemblerSpec encode s ts).map GoldenRow.id =
      (List.range ts.length).map (fun k => "s" ++ toString (s + k + 1)) := by
  induction ts generalizing s with
  | nil => simp [rowAssemblerSpec]
  | cons x xs ih =>
    simp only [rowAssemblerSpec, List.map_cons, List.length_cons,
      List.range_succ_eq_map, List.map_map]
    congr 1
    rw [ih]
    refine List.map_congr_left ?_
    intro k _
    simp only [Function.comp_apply]
    have harith : s + 1 + k + 1 = s + (k + 1) + 1 := by omega
    rw [harith]

theorem rowAssemblerSpec_map_text (encode : String → SparseVec α) (s : ℕ)
    (ts : List String) :
    (rowAssemblerSpec encode s ts).map GoldenRow.text = ts := by
  induction ts generalizing s with
  | nil => simp [rowAssemblerSpec]
  | cons x xs ih => simp [rowAssemblerSpec, ih]

end AssembleLemmas

/-- C5: rows are emitted one per document in input order with globally
sequential ids `s1, s2, ...`, and the assembled rows do not depend on the
(positive) batch size. -/
theorem mainRows_batch_invariant {α : Type} (encode : String → SparseVec α)
    (bs1 bs2 : ℕ) (texts : List String) (h1 : 0 < bs1) (h2 : 0 < bs2) :
    mainRows encode bs1 texts = rowAssemblerSpec encode 0 texts ∧
    mainRows encode bs1 texts = mainRows encode bs2 texts ∧
    (mainRows encode bs1 texts).map GoldenRow.id =
      (List.range texts.length).map (fun k => "s" ++ toString (k + 1)) ∧
    (mainRows encode bs1 texts).map GoldenRow.text = texts := by
  have hmain : ∀ bs : ℕ, 0 < bs →
      mainRows encode bs texts = rowAssemblerSpec encode 0 texts := by
    intro bs hbs
    have h := mainRows_foldl encode bs hbs texts.length texts le_rfl []
    simpa [mainRows] using h
  refine ⟨hmain bs1 h1, (hmain bs1 h1).trans (hmain bs2 h2).symm, ?_, ?_⟩
  · rw [hmain bs1 h1, rowAssemblerSpec_map_id]
    refine List.map_congr_left ?_
    intro k _
    rw [Nat.zero_add]
  · rw [hmain bs1 h1, rowAssemblerSpec_map_text]

/-- C5 witness: three documents, batch sizes 2 and 3. -/
theorem mainRows_batch_invariant_witness :
    mainRows (fun _ => SparseVec.mk ([] : List ℕ) ([] : List ℚ) []) 2
        ["a", "b", "c"] =
      mainRows (fun _ => SparseVec.mk ([] : List ℕ) ([] : List ℚ) []) 3
        ["a", "b", "c"] :=
  (mainRows_batch_invariant (fun _ => SparseVec.mk [] [] []) 2 3
    ["a", "b", "c"] (by decide) (by decide)).2.1

/-! ### Claims C6, C7, C8, C10, C9 -/

/-- C6: the validation phase of `main` ends in an early `return 2` (message
on the error stream, before any tokenizer/model load or file write) exactly
when the text set is empty, the sequence length or batch size is
non-positive, `top_k` is negative, or the prune threshold is negative;
otherwise control proceeds. -/
theorem mainValidate_earlyExit_iff (texts : List String)
    (sequence_length batch_size top_k : Int) (prune_threshold : ℚ) :
    ((∃ msg, mainValidate texts sequence_length batch_size top_k
        prune_threshold = .earlyExit 2 msg) ↔
      (texts = [] ∨ sequence_length ≤ 0 ∨ batch_size ≤ 0 ∨ top_k < 0 ∨
        prune_threshold < 0)) ∧
    (mainValidate texts sequence_length batch_size top_k prune_threshold =
        .proceed ↔
      ¬(texts = [] ∨ sequence_length ≤ 0 ∨ batch_size ≤ 0 ∨ top_k < 0 ∨
        prune_threshold < 0)) := by
  unfold mainValidate
  split_ifs with hA hB hC hD hE <;> simp_all

/-- C6 witness: an empty text set makes validation exit early with code 2,
and default settings on a non-empty text set proceed. -/
theorem mainValidate_earlyExit_iff_witness :
    (∃ msg, mainValidate [] 256 8 24 0 = .earlyExit 2 msg) ∧
    mainValidate ["doc"] 256 8 24 0 = .proceed :=
  ⟨(mainValidate_earlyExit_iff [] 256 8 24 0).1.mpr (Or.inl rfl),
   (mainValidate_earlyExit_iff ["doc"] 256 8 24 0).2.mpr (by
     push_neg
     refine ⟨by simp, by norm_num, by norm_num, by norm_num, by norm_num⟩)⟩

/-- C7: the text loader returns the inline strings unmodified followed by
the file's trimmed non-blank lines in file order; a file of 3 non-empty
lines with 2 blank lines interleaved and no inline strings yields exactly
those 3 texts. -/
theorem load_texts_contract (inline_texts : List String)
    (lines : List String) :
    load_texts inline_texts none = inline_texts ∧
    load_texts inline_texts (some lines) =
      inline_texts ++
        (lines.map strip).filter (fun text => decide (text ≠ "")) ∧
    load_texts [] (some ["line one", "", "line two", "   ", "line three"]) =
      ["line one", "line two", "line three"] := by
  have hfold : ∀ (acc : List String) (ls : List String),
      ls.foldl (fun acc line =>
        let text := strip line
        if text = "" then acc else acc ++ [text]) acc =
      acc ++ (ls.map strip).filter (fun text => decide (text ≠ "")) := by
    intro acc ls
    induction ls generalizing acc with
    | nil => simp
    | cons l ls ih =>
      simp only [List.foldl_cons, List.map_cons, List.filter_cons]
      by_cases h : strip l = ""
      · simp [h, ih]
      · simp [h, ih]
  refine ⟨rfl, hfold inline_texts lines, ?_⟩
  rw [load_texts, hfold]
  rfl

/-- C8: the device resolver returns any explicit (non-`"auto"`) request
unmodified; `"auto"` resolves to `"cuda"` when the GPU accelerator is
available, else `"mps"` when the Apple-silicon backend exists and is
available, else `"cpu"`; with both accelerators unavailable, `"auto"`
resolves to `"cpu"`. -/
theorem resolve_device_contract (cuda_available mps_backend mps_available :
    Bool) (device_arg : String) :
    (device_arg ≠ "auto" →
      resolve_device cuda_available mps_backend mps_available device_arg =
        device_arg) ∧
    (resolve_device cuda_available mps_backend mps_available "auto" =
      if cuda_available then "cuda"
      else if mps_backend && mps_available then "mps"
      else "cpu") ∧
    (cuda_available = false → (mps_backend && mps_available) = false →
      resolve_device cuda_available mps_backend mps_available "auto" =
        "cpu") := by
  refine ⟨?_, ?_, ?_⟩
  · intro h
    rw [resolve_device, if_pos h]
  · rw [resolve_device, if_neg (by simp)]
  · intro h1 h2
    rw [resolve_device, if_neg (by simp), if_neg (by simp [h1]),
      if_neg (by simp [h2])]

/-- C8 witness: explicit `"cpu"` passes through; `"auto"` with no
accelerator falls back to `"cpu"`. -/
theorem resolve_device_contract_witness :
    resolve_device false false false "cpu" = "cpu" ∧
    resolve_device false false false "auto" = "cpu" :=
  ⟨(resolve_device_contract false false false "cpu").1 (by decide),
   (resolve_device_contract false false false "auto").2.2 rfl rfl⟩

/-- C10: the resolved token is `none` exactly when the environment variable
is unset or trims to the empty string (empty or whitespace-only); otherwise
it is the variable's value with surrounding whitespace stripped. -/
theorem resolve_hf_token_contract (env : String → Option String)
    (hf_token_env : String) :
    (resolve_hf_token env hf_token_env = none ↔
      (env hf_token_env = none ∨
        ∃ s, env hf_token_env = some s ∧ strip s = "")) ∧
    (∀ s, env hf_token_env = some s → strip s ≠ "" →
      resolve_hf_token env hf_token_env = some (strip s)) := by
  have hstrip_empty : strip "" = "" := rfl
  constructor
  · cases henv : env hf_token_env with
    | none => simp [resolve_hf_token, henv, hstrip_empty]
    | some s =>
      simp only [resolve_hf_token, henv, Option.getD_some]
      by_cases h : strip s = ""
      · simp [h]
      · simp [h]
  · intro s hs hne
    simp [resolve_hf_token, hs, hne]

/-- C10 witness: a whitespace-padded token is trimmed before use. -/
theorem resolve_hf_token_contract_witness :
    resolve_hf_token (fun _ => some "  tok  ") "HF_TOKEN" =
      some (strip "  tok  ") :=
  (resolve_hf_token_contract (fun _ => some "  tok  ") "HF_TOKEN").2
    "  tok  " rfl (by decide)

/-- C9: both writers replace the content at their target path with exactly
the newly serialized document, independent of any previous content there,
and leave every other file path and every directory outside the created
parent chain unchanged. -/
theorem write_outputs_frame {α μ : Type} (dumps : GoldenRow α → String)
    (dumpMeta : μ → String) (parentDirs : String → List String)
    (fs fs' : FS) (path : String) (rows : List (GoldenRow α))
    (metadata : μ) :
    ((write_jsonl dumps parentDirs fs path rows).files path =
      some (jsonlContent dumps rows)) ∧
    ((write_jsonl dumps parentDirs fs path rows).files path =
      (write_jsonl dumps parentDirs fs' path rows).files path) ∧
    (∀ q, q ≠ path →
      (write_jsonl dumps parentDirs fs path rows).files q = fs.files q) ∧
    (∀ d, d ∉ parentDirs path →
      (write_jsonl dumps parentDirs fs path rows).dirs d = fs.dirs d) ∧
    ((write_metadata dumpMeta parentDirs fs path metadata).files path =
      some (dumpMeta metadata ++ "\n")) ∧
    ((write_metadata dumpMeta parentDirs fs path metadata).files path =
      (write_metadata dumpMeta parentDirs fs' path metadata).files path) ∧
    (∀ q, q ≠ path →
      (write_metadata dumpMeta parentDirs fs path metadata).files q =
        fs.files q) ∧
    (∀ d, d ∉ parentDirs path →
      (write_metadata dumpMeta parentDirs fs path metadata).dirs d =
        fs.dirs d) := by
  refine ⟨by simp [write_jsonl], by simp [write_jsonl], ?_, ?_,
    by simp [write_metadata], by simp [write_metadata], ?_, ?_⟩
  · intro q hq
    simp [write_jsonl, hq]
  · intro d hd
    simp [write_jsonl, hd]
  · intro q hq
    simp [write_metadata, hq]
  · intro d hd
    simp [write_metadata, hd]

/-- C9 witness: an untouched path keeps its (absent) content; an unrelated
directory stays absent. -/
theorem write_outputs_frame_witness :
    (write_jsonl (fun (_ : GoldenRow ℚ) => "") (fun _ => [])
        ⟨fun _ => none, fun _ => false⟩ "out/golden.jsonl" []).files
      "other.txt" = none ∧
    (write_metadata (fun (_ : Unit) => "mdata") (fun _ => [])
        ⟨fun _ => none, fun _ => false⟩ "out/metadata.json" ()).dirs
      "elsewhere" = false :=
  ⟨(write_outputs_frame (fun (_ : GoldenRow ℚ) => "")
      (fun (_ : Unit) => "mdata") (fun _ => [])
      ⟨fun _ => none, fun _ => false⟩ ⟨fun _ => none, fun _ => false⟩
      "out/golden.jsonl" [] ()).2.2.1 "other.txt" (by decide),
   (write_outputs_frame (fun (_ : GoldenRow ℚ) => "")
      (fun (_ : Unit) => "mdata") (fun _ => [])
      ⟨fun _ => none, fun _ => false⟩ ⟨fun _ => none, fun _ => false⟩
      "out/metadata.json" [] ()).2.2.2.2.2.2.2 "elsewhere" (by decide)⟩

end Splade
